import Mathlib

/-!
Verification development for the PDF auto-fill application (src/app93.py).

The program is embedded shallowly over `List Char`:
* `clean_text`    models `clean_text` (lines 42-45): the two `re.sub` passes
  followed by `str.strip()`.
* `pdf_to_text`   models `pdf_to_text` (lines 47-57) on the list of per-page
  OCR outputs (the rasterizer and OCR engine are external collaborators).
* `call_groq`     models `call_groq` (lines 59-87); the HTTP transport is a
  parameter mapping the request and the attempt index to an outcome, and the
  result additionally records how many network attempts were made.
* `call_groq_chunk`, `groq_fill_missing`, `groq_answer_question` model the
  functions of the same names (lines 89-128); `groq_fill_missing` also
  returns the list of prompts it issued, in order.
* `generate_pdf`  models `generate_pdf` (lines 130-155) as the list of
  drawing operations issued to the canvas; all vertical coordinates in the
  source are integral (792 - 40, then steps of 30 and 12), so `Int` is exact.
-/

/-- The characters matched by `[ \t]` in the first `re.sub` pass. -/
def isHT (c : Char) : Bool := c == ' ' || c == '\t'

/-- ASCII whitespace as matched by `\s` in `re` and stripped by `str.strip()`. -/
def isPySpace (c : Char) : Bool :=
  c == ' ' || c == '\t' || c == '\n' || c == '\r' || c == '\x0b' || c == '\x0c'

/-- Models `str.strip()`: drop whitespace from both ends. -/
def pystrip (l : List Char) : List Char :=
  ((l.dropWhile isPySpace).reverse.dropWhile isPySpace).reverse

/-- Single pass over the text modelling `re.sub(r"[ \t]+", " ", text)`:
each maximal run of spaces and tabs is replaced by a single space.  The
Boolean state records whether we are currently inside a run that has already
emitted its replacement space. -/
def sub_htGo : Bool → List Char → List Char
  | _, [] => []
  | skipping, c :: cs =>
    if isHT c then
      if skipping then sub_htGo true cs
      else ' ' :: sub_htGo true cs
    else c :: sub_htGo false cs

/-- Models `re.sub` of the pattern matched by `isHT`, one space per run. -/
def sub_ht (l : List Char) : List Char := sub_htGo false l

/-- Does the maximal leading whitespace run of `l` contain a newline? -/
def nlInWs : List Char → Bool
  | [] => false
  | c :: cs => if isPySpace c then c == '\n' || nlInWs cs else false

/-- Single pass modelling `re.sub(r"\n\s*\n+", "\n\n", text)` with the
leftmost-greedy semantics of `re.sub`: a match starts at a newline whose
following whitespace run contains another newline, extends up to the last
newline of that run, and is replaced by exactly two newlines.  The Boolean
state records whether we are currently skipping the interior of a match. -/
def sub_nlGo : Bool → List Char → List Char
  | _, [] => []
  | false, c :: cs =>
    if c == '\n' && nlInWs cs then '\n' :: '\n' :: sub_nlGo true cs
    else c :: sub_nlGo false cs
  | true, c :: cs =>
    if c == '\n' && !nlInWs cs then sub_nlGo false cs
    else sub_nlGo true cs

/-- Models the second `re.sub` pass, collapsing blank-line runs. -/
def sub_nl (l : List Char) : List Char := sub_nlGo false l

/-- Models `clean_text` (lines 42-45): collapse horizontal whitespace, collapse
blank-line runs, strip both ends. -/
def clean_text (l : List Char) : List Char := pystrip (sub_nl (sub_ht l))

/-- Models `pdf_to_text` (lines 47-57): `none` models the rasterization failure
path (which returns the empty string); on success the per-page OCR texts are
cleaned and accumulated, each followed by a blank-line separator, exactly as
the `full_text += clean_text(page_text) + "\n\n"` loop does. -/
def pdf_to_text (rasterized : Option (List (List Char))) : List Char :=
  match rasterized with
  | none => []
  | some pages => pages.foldl (fun acc page => acc ++ clean_text page ++ ['\n', '\n']) []

/-- Refinement target taken from the specification text, not from the code:
"normalize each page, and concatenate pages with a blank-line separator". -/
def specPageConcat (pages : List (List Char)) : List Char :=
  List.intercalate ['\n', '\n'] (pages.map clean_text)

/-- The chunking loop `[text[i:i+n] for i in range(0, len(text), n)]`,
with the list length as structural recursion fuel (one slice consumes at
least one character whenever `0 < n`, so the fuel never runs out). -/
def chunkGo (n : Nat) : Nat → List Char → List (List Char)
  | 0, _ => []
  | fuel + 1, l => if l = [] then [] else l.take n :: chunkGo n fuel (l.drop n)

/-- Models the list comprehension slicing `text` into pieces of size `n`. -/
def chunkList (n : Nat) (l : List Char) : List (List Char) := chunkGo n l.length l

/-- One chat-completion HTTP exchange: a response with a status code and the
first choice message content, or a raised exception (network error or
unparsable body). -/
inductive HttpResult where
  | response (status : Nat) (body : List Char)
  | exception
deriving DecidableEq

/-- The request body assembled by `call_groq` (lines 63-69). -/
structure Request where
  model : String
  prompt : List Char
  temperature : Rat
  maxTokens : Nat
deriving DecidableEq

/-- Outcome of `call_groq`: the returned `(content, error)` pair plus the
number of POST attempts that were made. -/
structure GroqResult where
  content : Option (List Char)
  error : Option String
  attempts : Nat
deriving DecidableEq

/-- The `for attempt in range(3)` retry loop (lines 71-87).  `send` gives the
transport outcome of each attempt; a 200 response returns the stripped
content, anything else retries; exhausting the fuel yields the
"Failed after retries" pair. -/
def call_groqGo (send : Nat → HttpResult) : Nat → Nat → GroqResult
  | _, 0 => ⟨none, some "Failed after retries", 0⟩
  | attempt, fuel + 1 =>
    match send attempt with
    | HttpResult.response status body =>
      if status = 200 then ⟨some (pystrip body), none, 1⟩
      else
        let r := call_groqGo send (attempt + 1) fuel
        ⟨r.content, r.error, r.attempts + 1⟩
    | HttpResult.exception =>
      let r := call_groqGo send (attempt + 1) fuel
      ⟨r.content, r.error, r.attempts + 1⟩

/-- Models `call_groq` (lines 59-87).  The empty API key is falsy in
`if not GROQ_API_KEY`, producing the immediate "Missing GROQ_API_KEY"
failure with zero attempts. -/
def call_groq (apiKey model : String) (transport : Request → Nat → HttpResult)
    (prompt : List Char) (temperature : Rat) (maxTokens : Nat) : GroqResult :=
  if apiKey = "" then ⟨none, some "Missing GROQ_API_KEY", 0⟩
  else call_groqGo (transport ⟨model, prompt, temperature, maxTokens⟩) 0 3

/-- Did this transport outcome have HTTP status 200? -/
def is200 : HttpResult → Bool
  | HttpResult.response status _ => status == 200
  | HttpResult.exception => false

/-- Fallback substituted by `call_groq_chunk` (line 99). -/
def failFallback : List Char := "AI filling failed.".toList

/-- Fallback substituted by `groq_answer_question` (line 128). -/
def answerFallback : List Char := "AI failed to answer.".toList

/-- Temperature 0.2 used by `call_groq_chunk` (line 98). -/
def fillTemp : Rat := 1 / 5

/-- Fixed part of the fill prompt before the chunk (lines 90-95). -/
def fillPromptHeader : List Char :=
  ("\nYou are an expert form assistant. The scanned form text below has missing values like \x27N/A\x27, \x27nan\x27, or \x27---\x27.\nPlease fill missing values realistically, preserving format.\n\n--- FORM START ---\n").toList

/-- Fixed part of the fill prompt after the chunk (lines 96-97). -/
def fillPromptFooter : List Char := ("\n--- FORM END ---\n").toList

/-- The f-string prompt of `call_groq_chunk` (lines 90-97). -/
def fillPrompt (chunk : List Char) : List Char :=
  fillPromptHeader ++ chunk ++ fillPromptFooter

/-- Models `call_groq_chunk` (lines 89-99): `content if content else "AI filling
failed."` — both `None` and the empty string are falsy in Python. -/
def call_groq_chunk (apiKey model : String) (transport : Request → Nat → HttpResult)
    (chunk : List Char) : List Char :=
  let r := call_groq apiKey model transport (fillPrompt chunk) fillTemp 1300
  match r.content with
  | some c => if c = [] then failFallback else c
  | none => failFallback

/-- Models `groq_fill_missing` (lines 101-112).  Besides the returned string, the
model records the list of prompts issued, in order, so that call counts and
sequencing are visible.  Texts over 8000 characters are cut into 4000-sized
chunks, each filled in order (the `filled_chunks.append` loop), and joined
with a newline; otherwise a single call is made on the whole text. -/
def groq_fill_missing (apiKey model : String) (transport : Request → Nat → HttpResult)
    (text : List Char) : List Char × List (List Char) :=
  if 8000 < text.length then
    let cs := chunkList 4000 text
    let filled := cs.foldl (fun acc chunk => acc ++ [call_groq_chunk apiKey model transport chunk]) []
    (List.intercalate ['\n'] filled, cs.map fillPrompt)
  else
    (call_groq_chunk apiKey model transport text, [fillPrompt text])

/-- Fixed part of the QA prompt before the filled text (lines 115-121). -/
def qaPromptHeader : List Char :=
  ("\nYou are a document information extractor.\nAnswer the user\x27s question based ONLY on the given form text.\nIf the answer is not explicitly present, reply \"Not available in the form.\"\n\n--- FORM START ---\n").toList

/-- Fixed part of the QA prompt between the filled text and the question. -/
def qaPromptMid : List Char := ("\n--- FORM END ---\n\nQuestion: ").toList

/-- Fixed part of the QA prompt after the question (lines 125-126). -/
def qaPromptTail : List Char := ("\nAnswer:\n").toList

/-- The f-string prompt of `groq_answer_question` (lines 115-126). -/
def qaPrompt (filled question : List Char) : List Char :=
  qaPromptHeader ++ filled ++ qaPromptMid ++ question ++ qaPromptTail

/-- Models `groq_answer_question` (lines 114-128): temperature 0, 400 max tokens,
`content if content else "AI failed to answer."`. -/
def groq_answer_question (apiKey model : String) (transport : Request → Nat → HttpResult)
    (filled question : List Char) : List Char :=
  let r := call_groq apiKey model transport (qaPrompt filled question) 0 400
  match r.content with
  | some c => if c = [] then answerFallback else c
  | none => answerFallback

/-- Canvas operations issued by `generate_pdf`: text drawn at a position, a
page break, or a font change. -/
inductive PdfOp where
  | draw (x y : Int) (text : List Char)
  | newPage
  | setFont (font : String) (size : Nat)
deriving DecidableEq

/-- Is this operation a `drawString`? -/
def isDraw : PdfOp → Bool
  | PdfOp.draw _ _ _ => true
  | _ => false

/-- Models `str.split` on newline: every newline separates, empty pieces included;
the result always has one more piece than there are newlines. -/
def splitNl : List Char → List (List Char)
  | [] => [[]]
  | c :: cs =>
    if c = '\n' then [] :: splitNl cs
    else
      match splitNl cs with
      | [] => [[c]]
      | l :: ls => (c :: l) :: ls

/-- The `while len(line) > 110` wrap loop (lines 143-146), with the line
length as structural fuel (each pass removes 110 characters).  Returns the
draw operations of the wrapped segments, the remaining line, and the cursor
position after the loop. -/
def wrapGo : Nat → List Char → Int → List PdfOp × List Char × Int
  | 0, line, y => ([], line, y)
  | fuel + 1, line, y =>
    if 110 < line.length then
      let r := wrapGo fuel (line.drop 110) (y - 12)
      (PdfOp.draw 40 y (line.take 110) :: r.1, r.2.1, r.2.2)
    else ([], line, y)

/-- The body of the `for line in filled_text.split("\n")` loop for one line
(lines 140-152): blank lines only advance the cursor; otherwise the line is
wrapped, the stripped remainder drawn, the cursor advanced, and a new page
started when the cursor has fallen below the 40-point bottom margin. -/
def processLine (line : List Char) (y : Int) : List PdfOp × Int :=
  if pystrip line = [] then ([], y - 12)
  else
    let r := wrapGo line.length line y
    let ops := r.1 ++ [PdfOp.draw 40 r.2.2 (pystrip r.2.1)]
    let y2 := r.2.2 - 12
    if y2 < 40 then (ops ++ [PdfOp.newPage, PdfOp.setFont "Helvetica" 10], 752)
    else (ops, y2)

/-- Fold `processLine` over the split lines, threading the cursor. -/
def renderLines : List (List Char) → Int → List PdfOp
  | [], _ => []
  | line :: rest, y =>
    let r := processLine line y
    r.1 ++ renderLines rest r.2

/-- Models `generate_pdf` (lines 130-155) as its trace of canvas operations.
LETTER is 612 x 792 points; the title goes at y = 752 and the body starts
at y = 722. -/
def generate_pdf (text : List Char) : List PdfOp :=
  PdfOp.setFont "Helvetica-Bold" 14
    :: PdfOp.draw 40 752 ("Final Clean Form (AI-filled)").toList
    :: PdfOp.setFont "Helvetica" 10
    :: renderLines (splitNl text) 722

/-! ### Whitespace stripping: basic structure of `pystrip` -/

/-- The head of `l` (if any) is not whitespace. -/
def noWsHead : List Char → Bool
  | [] => true
  | c :: _ => !isPySpace c

/-- Removal of the trailing whitespace run. -/
def stripTrailing (l : List Char) : List Char :=
  (l.reverse.dropWhile isPySpace).reverse

theorem pystrip_eq_stripTrailing (l : List Char) :
    pystrip l = stripTrailing (l.dropWhile isPySpace) := rfl

theorem noWsHead_dropWhile (l : List Char) :
    noWsHead (l.dropWhile isPySpace) = true := by
  induction l with
  | nil => rfl
  | cons c cs ih =>
    rw [List.dropWhile_cons]
    by_cases h : isPySpace c = true
    · simpa [h] using ih
    · simp [h, noWsHead]

theorem dropWhile_eq_self_of_noWsHead (l : List Char) (h : noWsHead l = true) :
    l.dropWhile isPySpace = l := by
  cases l with
  | nil => rfl
  | cons c cs =>
    simp only [noWsHead, Bool.not_eq_true'] at h
    simp [List.dropWhile_cons, h]

theorem stripTrailing_append (l : List Char) :
    ∃ w, stripTrailing l ++ w = l ∧ ∀ c ∈ w, isPySpace c = true := by
  refine ⟨(l.reverse.takeWhile isPySpace).reverse, ?_, ?_⟩
  · have h := List.takeWhile_append_dropWhile isPySpace l.reverse
    show (l.reverse.dropWhile isPySpace).reverse ++ (l.reverse.takeWhile isPySpace).reverse = l
    rw [← List.reverse_append, h, List.reverse_reverse]
  · intro c hc
    exact List.mem_takeWhile_imp (List.mem_reverse.mp hc)

theorem noWsHead_stripTrailing (l : List Char) (h : noWsHead l = true) :
    noWsHead (stripTrailing l) = true := by
  obtain ⟨w, hw, _⟩ := stripTrailing_append l
  cases hst : stripTrailing l with
  | nil => rfl
  | cons c cs =>
    have hl : l = c :: (cs ++ w) := by rw [← hw, hst]; simp
    rw [hl] at h
    simpa [noWsHead] using h

theorem noWsHead_reverse_stripTrailing (l : List Char) :
    noWsHead (stripTrailing l).reverse = true := by
  have : (stripTrailing l).reverse = l.reverse.dropWhile isPySpace := by
    simp [stripTrailing]
  rw [this]
  exact noWsHead_dropWhile l.reverse

theorem pystrip_idem (l : List Char) : pystrip (pystrip l) = pystrip l := by
  have h1 : noWsHead (pystrip l) = true :=
    noWsHead_stripTrailing _ (noWsHead_dropWhile l)
  have h2 : noWsHead (pystrip l).reverse = true := noWsHead_reverse_stripTrailing _
  show ((((pystrip l).dropWhile isPySpace).reverse).dropWhile isPySpace).reverse = pystrip l
  rw [dropWhile_eq_self_of_noWsHead _ h1, dropWhile_eq_self_of_noWsHead _ h2,
    List.reverse_reverse]

theorem pystrip_eq_nil_of_all_ws (l : List Char) (h : ∀ c ∈ l, isPySpace c = true) :
    pystrip l = [] := by
  have : l.dropWhile isPySpace = [] := List.dropWhile_eq_nil_iff.mpr h
  simp [pystrip, this]

/-! ### Fixed points of the horizontal-whitespace pass -/

/-- The head of `l` (if any) is not a space or tab. -/
def headNotHT : List Char → Bool
  | [] => true
  | c :: _ => !isHT c

/-- Predicate: `l` is a fixed point of the first substitution: every space or tab in
it is a single space not followed by another space or tab. -/
def good_ht : List Char → Bool
  | [] => true
  | c :: cs => (if isHT c then (c == ' ') && headNotHT cs else true) && good_ht cs

theorem good_ht_tail (c : Char) (cs : List Char) (h : good_ht (c :: cs) = true) :
    good_ht cs = true := by
  simp only [good_ht, Bool.and_eq_true] at h
  exact h.2

theorem sub_htGo_true_eq_false (l : List Char) (h : headNotHT l = true) :
    sub_htGo true l = sub_htGo false l := by
  cases l with
  | nil => rfl
  | cons c cs =>
    simp only [headNotHT, Bool.not_eq_true'] at h
    simp [sub_htGo, h]

theorem good_ht_fix (l : List Char) (h : good_ht l = true) : sub_htGo false l = l := by
  induction l with
  | nil => rfl
  | cons c cs ih =>
    by_cases hc : isHT c = true
    · simp only [good_ht, hc, if_true, Bool.and_eq_true, beq_iff_eq] at h
      obtain ⟨⟨hsp, hh⟩, hg⟩ := h
      simp only [sub_htGo, hc, if_true]
      rw [sub_htGo_true_eq_false cs hh, ih hg, hsp]
      simp
    · simp only [good_ht, hc, if_false, Bool.true_and] at h
      simp [sub_htGo, hc, ih h]

theorem headNotHT_sub_htGo_true (l : List Char) : headNotHT (sub_htGo true l) = true := by
  induction l with
  | nil => rfl
  | cons c cs ih =>
    by_cases hc : isHT c = true
    · simpa [sub_htGo, hc] using ih
    · simp [sub_htGo, hc, headNotHT]

theorem good_ht_sub_htGo (l : List Char) : ∀ b, good_ht (sub_htGo b l) = true := by
  induction l with
  | nil => intro b; rfl
  | cons c cs ih =>
    intro b
    by_cases hc : isHT c = true
    · cases b with
      | true => simpa [sub_htGo, hc] using ih true
      | false =>
        have h1 : isHT ' ' = true := by decide
        have h2 : (' ' == ' ') = true := by decide
        simp only [sub_htGo, hc, if_true]
        simp [good_ht, h1, h2, headNotHT_sub_htGo_true cs, ih true]
    · simp [sub_htGo, hc, good_ht, ih false]

theorem good_ht_sub_ht (l : List Char) : good_ht (sub_ht l) = true :=
  good_ht_sub_htGo l false

theorem sub_ht_fix (l : List Char) (h : good_ht l = true) : sub_ht l = l :=
  good_ht_fix l h

/-! ### Fixed points of the blank-line pass -/

/-- Predicate: `l` is a fixed point of the blank-line substitution: whenever a newline
has another newline in its following whitespace run, that other newline is
immediately adjacent and is the last newline of the run. -/
def good_nl : List Char → Bool
  | [] => true
  | [_] => true
  | c :: c2 :: cs2 =>
    if c == '\n' && nlInWs (c2 :: cs2) then
      (c2 == '\n') && !nlInWs cs2 && good_nl cs2
    else good_nl (c2 :: cs2)

theorem nlInWs_cons (c : Char) (cs : List Char) :
    nlInWs (c :: cs) = if isPySpace c then c == '\n' || nlInWs cs else false := rfl

theorem sub_nlGo_false_cons (c : Char) (cs : List Char) :
    sub_nlGo false (c :: cs) =
      if c == '\n' && nlInWs cs then '\n' :: '\n' :: sub_nlGo true cs
      else c :: sub_nlGo false cs := rfl

theorem sub_nlGo_true_cons (c : Char) (cs : List Char) :
    sub_nlGo true (c :: cs) =
      if c == '\n' && !nlInWs cs then sub_nlGo false cs else sub_nlGo true cs := rfl

theorem good_nl_cons_false (c : Char) (cs : List Char)
    (h : (c == '\n' && nlInWs cs) = false) : good_nl (c :: cs) = good_nl cs := by
  cases cs with
  | nil => rfl
  | cons c2 cs2 => simp [good_nl, h]

theorem good_nl_cons_true (c c2 : Char) (cs2 : List Char)
    (h : (c == '\n' && nlInWs (c2 :: cs2)) = true) :
    good_nl (c :: c2 :: cs2) = ((c2 == '\n') && !nlInWs cs2 && good_nl cs2) := by
  simp [good_nl, h]

theorem good_nl_tail (c : Char) (cs : List Char) (h : good_nl (c :: cs) = true) :
    good_nl cs = true := by
  cases hg : (c == '\n' && nlInWs cs) with
  | false => rwa [good_nl_cons_false c cs hg] at h
  | true =>
    cases cs with
    | nil => simp [nlInWs] at hg
    | cons c2 cs2 =>
      rw [good_nl_cons_true c c2 cs2 hg] at h
      simp only [Bool.and_eq_true, Bool.not_eq_true'] at h
      obtain ⟨⟨h1, h2⟩, h3⟩ := h
      have hg2 : (c2 == '\n' && nlInWs cs2) = false := by simp [h2]
      rw [good_nl_cons_false c2 cs2 hg2]
      exact h3

theorem nlInWs_append (m v : List Char) (h : nlInWs m = true) :
    nlInWs (m ++ v) = true := by
  induction m with
  | nil => simp [nlInWs] at h
  | cons c cs ih =>
    rw [nlInWs_cons] at h
    by_cases hc : isPySpace c = true
    · rw [if_pos hc] at h
      simp only [Bool.or_eq_true] at h
      rcases h with h | h
      · simp [List.cons_append, nlInWs_cons, hc, h]
      · simp [List.cons_append, nlInWs_cons, hc, ih h]
    · rw [if_neg hc] at h
      simp at h

theorem beq_nl_false_of_not_ws (c : Char) (hc : ¬ isPySpace c = true) :
    (c == '\n') = false := by
  cases hq : (c == '\n') with
  | false => rfl
  | true =>
    exfalso
    apply hc
    have : c = '\n' := by simpa using hq
    subst this
    decide

theorem nlInWs_sub_nlGo_false (l : List Char) (h : nlInWs l = false) :
    nlInWs (sub_nlGo false l) = false := by
  induction l with
  | nil => exact h
  | cons c cs ih =>
    by_cases hc : isPySpace c = true
    · have hq : (c == '\n') = false := by
        cases hq2 : (c == '\n') with
        | false => rfl
        | true =>
          rw [nlInWs_cons] at h
          simp [hc, hq2] at h
      have hcs : nlInWs cs = false := by
        rw [nlInWs_cons] at h
        simpa [hc, hq] using h
      have hg : (c == '\n' && nlInWs cs) = false := by simp [hq]
      simp [sub_nlGo_false_cons, hg, nlInWs_cons, hc, hq, ih hcs]
    · have hq : (c == '\n') = false := beq_nl_false_of_not_ws c hc
      have hg : (c == '\n' && nlInWs cs) = false := by simp [hq]
      simp [sub_nlGo_false_cons, hg, nlInWs_cons, hc]

theorem sub_nl_good_aux : ∀ n : Nat, ∀ l : List Char, l.length ≤ n →
    good_nl (sub_nlGo false l) = true ∧ good_nl (sub_nlGo true l) = true ∧
      nlInWs (sub_nlGo true l) = false := by
  intro n
  induction n with
  | zero =>
    intro l hl
    have hnil : l = [] := List.length_eq_zero.mp (Nat.le_zero.mp hl)
    subst hnil
    exact ⟨rfl, rfl, rfl⟩
  | succ m ih =>
    intro l hl
    cases l with
    | nil => exact ⟨rfl, rfl, rfl⟩
    | cons c cs =>
      have hcs : cs.length ≤ m := by
        simp only [List.length_cons] at hl
        omega
      obtain ⟨ih1, ih2, ih3⟩ := ih cs hcs
      have e1 : isPySpace '\n' = true := by decide
      have e2 : (('\n' : Char) == '\n') = true := by decide
      refine ⟨?_, ?_, ?_⟩
      · by_cases hg : (c == '\n' && nlInWs cs) = true
        · rw [sub_nlGo_false_cons, if_pos hg]
          have hguard :
              (('\n' : Char) == '\n' && nlInWs ('\n' :: sub_nlGo true cs)) = true := by
            simp [nlInWs_cons, e1, e2]
          rw [good_nl_cons_true _ _ _ hguard]
          simp [e2, ih2, ih3]
        · rw [sub_nlGo_false_cons, if_neg hg]
          have hgf : (c == '\n' && nlInWs cs) = false := by rwa [Bool.not_eq_true] at hg
          cases hq : (c == '\n') with
          | true =>
            have hcs2 : nlInWs cs = false := by
              cases hr : nlInWs cs with
              | false => rfl
              | true => rw [hq, hr] at hgf; simp at hgf
            have hY := nlInWs_sub_nlGo_false cs hcs2
            have hg2 : (c == '\n' && nlInWs (sub_nlGo false cs)) = false := by
              rw [hY]; simp
            rw [good_nl_cons_false _ _ hg2]
            exact ih1
          | false =>
            have hg2 : (c == '\n' && nlInWs (sub_nlGo false cs)) = false := by
              rw [hq]; simp
            rw [good_nl_cons_false _ _ hg2]
            exact ih1
      · by_cases hg : (c == '\n' && !nlInWs cs) = true
        · rw [sub_nlGo_true_cons, if_pos hg]
          exact ih1
        · rw [sub_nlGo_true_cons, if_neg hg]
          exact ih2
      · by_cases hg : (c == '\n' && !nlInWs cs) = true
        · rw [sub_nlGo_true_cons, if_pos hg]
          have hcs2 : nlInWs cs = false := by
            have h2 := hg
            simp only [Bool.and_eq_true, Bool.not_eq_true'] at h2
            exact h2.2
          exact nlInWs_sub_nlGo_false cs hcs2
        · rw [sub_nlGo_true_cons, if_neg hg]
          exact ih3

theorem good_nl_fix_aux : ∀ n : Nat, ∀ l : List Char, l.length ≤ n →
    good_nl l = true → sub_nlGo false l = l := by
  intro n
  induction n with
  | zero =>
    intro l hl _
    have hnil : l = [] := List.length_eq_zero.mp (Nat.le_zero.mp hl)
    subst hnil
    rfl
  | succ m ih =>
    intro l hl h
    cases l with
    | nil => rfl
    | cons c cs =>
      by_cases hg : (c == '\n' && nlInWs cs) = true
      · cases cs with
        | nil => simp [nlInWs] at hg
        | cons c2 cs2 =>
          rw [good_nl_cons_true _ _ _ hg] at h
          simp only [Bool.and_eq_true, Bool.not_eq_true'] at h
          obtain ⟨⟨h1, h2⟩, h3⟩ := h
          have hgp := hg
          simp only [Bool.and_eq_true] at hgp
          have hc : c = '\n' := by simpa using hgp.1
          have hc2 : c2 = '\n' := by simpa using h1
          have hinner : (c2 == '\n' && !nlInWs cs2) = true := by simp [h1, h2]
          have hlen : cs2.length ≤ m := by
            simp only [List.length_cons] at hl
            omega
          rw [sub_nlGo_false_cons, if_pos hg, sub_nlGo_true_cons, if_pos hinner]
          rw [ih cs2 hlen h3, hc, hc2]
      · have hgf : (c == '\n' && nlInWs cs) = false := by rwa [Bool.not_eq_true] at hg
        rw [good_nl_cons_false _ _ hgf] at h
        have hlen : cs.length ≤ m := by
          simp only [List.length_cons] at hl
          omega
        rw [sub_nlGo_false_cons, if_neg hg, ih cs hlen h]

theorem good_nl_sub_nl (l : List Char) : good_nl (sub_nl l) = true :=
  (sub_nl_good_aux l.length l le_rfl).1

theorem sub_nl_fix (l : List Char) (h : good_nl l = true) : sub_nl l = l :=
  good_nl_fix_aux l.length l le_rfl h

/-! ### Preservation of the fixed-point predicates -/

theorem good_ht_dropWhile (l : List Char) (h : good_ht l = true) :
    good_ht (l.dropWhile isPySpace) = true := by
  induction l with
  | nil => exact h
  | cons c cs ih =>
    rw [List.dropWhile_cons]
    by_cases hc : isPySpace c = true
    · rw [if_pos hc]
      exact ih (good_ht_tail c cs h)
    · rw [if_neg hc]
      exact h

theorem good_nl_dropWhile (l : List Char) (h : good_nl l = true) :
    good_nl (l.dropWhile isPySpace) = true := by
  induction l with
  | nil => exact h
  | cons c cs ih =>
    rw [List.dropWhile_cons]
    by_cases hc : isPySpace c = true
    · rw [if_pos hc]
      exact ih (good_nl_tail c cs h)
    · rw [if_neg hc]
      exact h

theorem good_ht_append_left (m v : List Char) (h : good_ht (m ++ v) = true) :
    good_ht m = true := by
  induction m with
  | nil => rfl
  | cons c m2 ih =>
    rw [List.cons_append] at h
    have h2 : good_ht (m2 ++ v) = true := good_ht_tail _ _ h
    simp only [good_ht, Bool.and_eq_true] at h ⊢
    refine ⟨?_, ih h2⟩
    obtain ⟨h1, _⟩ := h
    by_cases hc : isHT c = true
    · rw [if_pos hc] at h1 ⊢
      simp only [Bool.and_eq_true] at h1 ⊢
      refine ⟨h1.1, ?_⟩
      cases m2 with
      | nil => rfl
      | cons d ds => exact h1.2
    · rw [if_neg hc]

theorem good_nl_append_ws : ∀ n : Nat, ∀ m v : List Char, m.length ≤ n →
    (∀ c ∈ v, isPySpace c = true) → good_nl (m ++ v) = true → good_nl m = true := by
  intro n
  induction n with
  | zero =>
    intro m v hl _ _
    have hnil : m = [] := List.length_eq_zero.mp (Nat.le_zero.mp hl)
    subst hnil
    rfl
  | succ k ih =>
    intro m v hl hv h
    cases m with
    | nil => rfl
    | cons c m2 =>
      rw [List.cons_append] at h
      by_cases hg2 : (c == '\n' && nlInWs m2) = true
      · have hgp := hg2
        simp only [Bool.and_eq_true] at hgp
        have hm2 : nlInWs m2 = true := hgp.2
        cases m2 with
        | nil => simp [nlInWs] at hm2
        | cons c2 m3 =>
          have hg : (c == '\n' && nlInWs (c2 :: (m3 ++ v))) = true := by
            simp only [Bool.and_eq_true]
            exact ⟨hgp.1, by simpa using nlInWs_append (c2 :: m3) v hm2⟩
          rw [List.cons_append] at h
          rw [good_nl_cons_true c c2 (m3 ++ v) hg] at h
          simp only [Bool.and_eq_true, Bool.not_eq_true'] at h
          obtain ⟨⟨h1, h2⟩, h3⟩ := h
          have hm3 : nlInWs m3 = false := by
            cases hr : nlInWs m3 with
            | false => rfl
            | true => rw [nlInWs_append m3 v hr] at h2; simp at h2
          have hguard : (c == '\n' && nlInWs (c2 :: m3)) = true := by
            simp only [Bool.and_eq_true]
            exact ⟨hgp.1, hm2⟩
          rw [good_nl_cons_true c c2 m3 hguard]
          simp only [Bool.and_eq_true, Bool.not_eq_true']
          have hlen : m3.length ≤ k := by
            simp only [List.length_cons] at hl
            omega
          exact ⟨⟨h1, hm3⟩, ih m3 v hlen hv h3⟩
      · have hgf : (c == '\n' && nlInWs m2) = false := by rwa [Bool.not_eq_true] at hg2
        rw [good_nl_cons_false c m2 hgf]
        by_cases hG : (c == '\n' && nlInWs (m2 ++ v)) = true
        · cases m2 with
          | nil => rfl
          | cons c2 m3 =>
            exfalso
            have hGp := hG
            simp only [Bool.and_eq_true] at hGp
            rw [List.cons_append] at h
            rw [good_nl_cons_true c c2 (m3 ++ v) (by simpa using hG)] at h
            simp only [Bool.and_eq_true, Bool.not_eq_true'] at h
            obtain ⟨⟨h1, _⟩, _⟩ := h
            have hc2 : c2 = '\n' := by simpa using h1
            have hws : nlInWs (c2 :: m3) = true := by
              subst hc2
              rw [nlInWs_cons]
              simp [show isPySpace '\n' = true from by decide]
            rw [hGp.1, hws] at hgf
            simp at hgf
        · have hGf : (c == '\n' && nlInWs (m2 ++ v)) = false := by
            rwa [Bool.not_eq_true] at hG
          rw [good_nl_cons_false c (m2 ++ v) hGf] at h
          have hlen : m2.length ≤ k := by
            simp only [List.length_cons] at hl
            omega
          exact ih m2 v hlen hv h

theorem headNotHT_sub_nlGo_false (l : List Char) (h : headNotHT l = true) :
    headNotHT (sub_nlGo false l) = true := by
  cases l with
  | nil => rfl
  | cons c cs =>
    rw [sub_nlGo_false_cons]
    by_cases hg : (c == '\n' && nlInWs cs) = true
    · rw [if_pos hg]
      rfl
    · rw [if_neg hg]
      exact h

theorem good_ht_sub_nlGo_aux : ∀ n : Nat, ∀ l : List Char, l.length ≤ n →
    good_ht l = true →
    good_ht (sub_nlGo false l) = true ∧ good_ht (sub_nlGo true l) = true := by
  intro n
  induction n with
  | zero =>
    intro l hl h
    have hnil : l = [] := List.length_eq_zero.mp (Nat.le_zero.mp hl)
    subst hnil
    exact ⟨rfl, rfl⟩
  | succ k ih =>
    intro l hl h
    cases l with
    | nil => exact ⟨rfl, rfl⟩
    | cons c cs =>
      have hlen : cs.length ≤ k := by
        simp only [List.length_cons] at hl
        omega
      have hcs : good_ht cs = true := good_ht_tail c cs h
      obtain ⟨ih1, ih2⟩ := ih cs hlen hcs
      constructor
      · by_cases hg : (c == '\n' && nlInWs cs) = true
        · rw [sub_nlGo_false_cons, if_pos hg]
          have hn : isHT '\n' = false := by decide
          simp [good_ht, hn, ih2]
        · rw [sub_nlGo_false_cons, if_neg hg]
          simp only [good_ht, Bool.and_eq_true]
          refine ⟨?_, ih1⟩
          by_cases hc : isHT c = true
          · rw [if_pos hc]
            have hh := h
            simp only [good_ht, hc, if_true, Bool.and_eq_true] at hh
            simp only [Bool.and_eq_true]
            exact ⟨hh.1.1, headNotHT_sub_nlGo_false cs hh.1.2⟩
          · rw [if_neg hc]
      · by_cases hg : (c == '\n' && !nlInWs cs) = true
        · rw [sub_nlGo_true_cons, if_pos hg]
          exact ih1
        · rw [sub_nlGo_true_cons, if_neg hg]
          exact ih2

theorem good_ht_pystrip (l : List Char) (h : good_ht l = true) :
    good_ht (pystrip l) = true := by
  rw [pystrip_eq_stripTrailing]
  have hA : good_ht (l.dropWhile isPySpace) = true := good_ht_dropWhile l h
  obtain ⟨w, hw, _⟩ := stripTrailing_append (l.dropWhile isPySpace)
  exact good_ht_append_left _ w (by rw [hw]; exact hA)

theorem good_nl_pystrip (l : List Char) (h : good_nl l = true) :
    good_nl (pystrip l) = true := by
  rw [pystrip_eq_stripTrailing]
  have hA : good_nl (l.dropWhile isPySpace) = true := good_nl_dropWhile l h
  obtain ⟨w, hw, hws⟩ := stripTrailing_append (l.dropWhile isPySpace)
  exact good_nl_append_ws (stripTrailing (l.dropWhile isPySpace)).length _ w le_rfl hws
    (by rw [hw]; exact hA)

/-! ### Claim C8: the normalizer is idempotent -/

/-- C8: the text normalizer is idempotent — for every input string `x`,
`normalize(normalize(x)) = normalize(x)`, where `normalize` is `clean_text`
(src/app93.py lines 42-45). -/
theorem claim_C8 (l : List Char) : clean_text (clean_text l) = clean_text l := by
  have hht : good_ht (clean_text l) = true := by
    apply good_ht_pystrip
    exact (good_ht_sub_nlGo_aux (sub_ht l).length (sub_ht l) le_rfl (good_ht_sub_ht l)).1
  have hnl : good_nl (clean_text l) = true := by
    apply good_nl_pystrip
    exact good_nl_sub_nl (sub_ht l)
  show pystrip (sub_nl (sub_ht (clean_text l))) = clean_text l
  rw [sub_ht_fix _ hht, sub_nl_fix _ hnl]
  exact pystrip_idem (sub_nl (sub_ht l))

/-! ### Chunking lemmas -/

theorem chunkGo_nil (n : Nat) : ∀ fuel, chunkGo n fuel [] = [] := by
  intro fuel
  cases fuel with
  | zero => rfl
  | succ k => simp [chunkGo]

theorem chunkGo_fuel (n : Nat) (hn : 0 < n) : ∀ f1 f2 : Nat, ∀ l : List Char,
    l.length ≤ f1 → l.length ≤ f2 → chunkGo n f1 l = chunkGo n f2 l := by
  intro f1
  induction f1 with
  | zero =>
    intro f2 l h1 _
    have hnil : l = [] := List.length_eq_zero.mp (Nat.le_zero.mp h1)
    subst hnil
    rw [chunkGo_nil, chunkGo_nil]
  | succ k ih =>
    intro f2 l h1 h2
    cases l with
    | nil => rw [chunkGo_nil, chunkGo_nil]
    | cons c cs =>
      cases f2 with
      | zero => simp at h2
      | succ k2 =>
        have hne : (c :: cs) ≠ [] := by simp
        simp only [chunkGo, if_neg hne]
        have hd : ((c :: cs).drop n).length ≤ k := by
          rw [List.length_drop]
          simp only [List.length_cons] at h1 ⊢
          omega
        have hd2 : ((c :: cs).drop n).length ≤ k2 := by
          rw [List.length_drop]
          simp only [List.length_cons] at h2 ⊢
          omega
        rw [ih k2 _ hd hd2]

theorem chunkList_eq (n : Nat) (hn : 0 < n) (l : List Char) :
    chunkList n l = if l = [] then [] else l.take n :: chunkList n (l.drop n) := by
  cases l with
  | nil => rfl
  | cons c cs =>
    have hne : (c :: cs) ≠ [] := by simp
    rw [if_neg hne]
    show chunkGo n (c :: cs).length (c :: cs) = _
    simp only [List.length_cons, chunkGo, if_neg hne]
    have hd : ((c :: cs).drop n).length ≤ cs.length := by
      rw [List.length_drop]
      simp only [List.length_cons]
      omega
    rw [chunkGo_fuel n hn cs.length ((c :: cs).drop n).length _ hd le_rfl]
    rfl

theorem chunkList_flatten (n : Nat) (hn : 0 < n) : ∀ fuel : Nat, ∀ l : List Char,
    l.length ≤ fuel → (chunkList n l).flatten = l := by
  intro fuel
  induction fuel with
  | zero =>
    intro l hl
    have hnil : l = [] := List.length_eq_zero.mp (Nat.le_zero.mp hl)
    subst hnil
    rfl
  | succ k ih =>
    intro l hl
    cases l with
    | nil => rfl
    | cons c cs =>
      rw [chunkList_eq n hn]
      rw [if_neg (by simp : (c :: cs) ≠ [])]
      have hd : ((c :: cs).drop n).length ≤ k := by
        rw [List.length_drop]
        simp only [List.length_cons] at hl ⊢
        omega
      simp only [List.flatten_cons, ih _ hd]
      exact List.take_append_drop n (c :: cs)

theorem chunkList_mem_length (n : Nat) (hn : 0 < n) : ∀ fuel : Nat, ∀ l : List Char,
    l.length ≤ fuel → ∀ c ∈ chunkList n l, c.length ≤ n := by
  intro fuel
  induction fuel with
  | zero =>
    intro l hl c hc
    have hnil : l = [] := List.length_eq_zero.mp (Nat.le_zero.mp hl)
    subst hnil
    simp [chunkList, chunkGo] at hc
  | succ k ih =>
    intro l hl c hc
    cases l with
    | nil => simp [chunkList, chunkGo] at hc
    | cons a as =>
      rw [chunkList_eq n hn, if_neg (by simp : (a :: as) ≠ [])] at hc
      rcases List.mem_cons.mp hc with h | h
      · subst h
        rw [List.length_take]
        omega
      · have hd : ((a :: as).drop n).length ≤ k := by
          rw [List.length_drop]
          simp only [List.length_cons] at hl ⊢
          omega
        exact ih _ hd c h

theorem chunkList_count (n : Nat) (hn : 0 < n) : ∀ fuel : Nat, ∀ l : List Char,
    l.length ≤ fuel → (chunkList n l).length = (l.length + (n - 1)) / n := by
  intro fuel
  induction fuel with
  | zero =>
    intro l hl
    have hnil : l = [] := List.length_eq_zero.mp (Nat.le_zero.mp hl)
    subst hnil
    have h0 : (n - 1) / n = 0 := Nat.div_eq_of_lt (by omega)
    simp [chunkList, chunkGo, h0]
  | succ k ih =>
    intro l hl
    cases l with
    | nil =>
      have h0 : (n - 1) / n = 0 := Nat.div_eq_of_lt (by omega)
      simp [chunkList, chunkGo, h0]
    | cons a as =>
      rw [chunkList_eq n hn, if_neg (by simp : (a :: as) ≠ [])]
      have hd : ((a :: as).drop n).length ≤ k := by
        rw [List.length_drop]
        simp only [List.length_cons] at hl ⊢
        omega
      rw [List.length_cons, ih _ hd, List.length_drop]
      have hm : 0 < (a :: as).length := by simp
      have e1 : (a :: as).length + (n - 1) = ((a :: as).length - 1) + n := by omega
      have e2 : (a :: as).length - n + (n - 1) = ((a :: as).length - n + (n - 1)) := rfl
      rw [e1, Nat.add_div_right _ hn]
      by_cases hcase : (a :: as).length ≤ n
      · have l1 : (a :: as).length - n = 0 := by omega
        have l2 : ((a :: as).length - 1) / n = 0 := Nat.div_eq_of_lt (by omega)
        rw [l1, l2]
        have l3 : (n - 1) / n = 0 := Nat.div_eq_of_lt (by omega)
        simp [l3]
      · have e3 : (a :: as).length - n + (n - 1) = ((a :: as).length - n - 1) + n := by
          omega
        have e4 : (a :: as).length - 1 = ((a :: as).length - n - 1) + n := by omega
        rw [e3, Nat.add_div_right _ hn, e4, Nat.add_div_right _ hn]

/-! ### Claim C1: chunks partition the text -/

/-- C1: for every input text, the chunks computed by the chunked fill
workflow (size N = 4000) partition the text: their concatenation in order is
the original text, no chunk exceeds 4000 characters, and the number of
chunks is `ceil(len/4000) = (len + 3999) / 4000`. -/
theorem claim_C1 (text : List Char) :
    (chunkList 4000 text).flatten = text
    ∧ (∀ c ∈ chunkList 4000 text, c.length ≤ 4000)
    ∧ (chunkList 4000 text).length = (text.length + 3999) / 4000 := by
  refine ⟨chunkList_flatten 4000 (by omega) text.length text le_rfl,
          chunkList_mem_length 4000 (by omega) text.length text le_rfl, ?_⟩
  have h := chunkList_count 4000 (by omega) text.length text le_rfl
  simpa using h

/-! ### Claim C9: page concatenation in the OCR adapter -/

theorem pdf_pages_foldl (pages : List (List Char)) : ∀ acc : List Char,
    pages.foldl (fun acc page => acc ++ clean_text page ++ ['\n', '\n']) acc
      = acc ++ (pages.map (fun p => clean_text p ++ ['\n', '\n'])).flatten := by
  induction pages with
  | nil => intro acc; simp
  | cons p ps ih =>
    intro acc
    simp only [List.foldl_cons, List.map_cons, List.flatten_cons, ih]
    simp [List.append_assoc]

/-- C9 (amended): on successful rasterization the adapter output is the
OCR text of each page normalized by `clean_text`, with a blank-line separator
appended AFTER every page — including the last — rather than only between
pages. -/
theorem claim_C9 (pages : List (List Char)) :
    pdf_to_text (some pages)
      = (pages.map (fun p => clean_text p ++ ['\n', '\n'])).flatten := by
  show pages.foldl _ [] = _
  simpa using pdf_pages_foldl pages []

/-- C9 counterexample: for a one-page document the code output carries a
trailing blank-line separator, so it differs from the spec-worded
separator-only concatenation `specPageConcat`. -/
theorem claim_C9_counterexample :
    pdf_to_text (some [['a']]) ≠ specPageConcat [['a']] := by decide

/-! ### Completion-client step lemmas -/

theorem call_groqGo_fail_step (send : Nat → HttpResult) (attempt fuel : Nat)
    (h : is200 (send attempt) = false) :
    call_groqGo send attempt (fuel + 1) =
      ⟨(call_groqGo send (attempt + 1) fuel).content,
       (call_groqGo send (attempt + 1) fuel).error,
       (call_groqGo send (attempt + 1) fuel).attempts + 1⟩ := by
  cases hS : send attempt with
  | response status body =>
    rw [hS] at h
    have hne : status ≠ 200 := by simpa [is200] using h
    simp [call_groqGo, hS, hne]
  | exception => simp [call_groqGo, hS]

theorem call_groqGo_success_step (send : Nat → HttpResult) (attempt fuel : Nat)
    (body : List Char) (h : send attempt = HttpResult.response 200 body) :
    call_groqGo send attempt (fuel + 1) = ⟨some (pystrip body), none, 1⟩ := by
  simp [call_groqGo, h]

theorem call_groqGo_all_fail (send : Nat → HttpResult)
    (h : ∀ i, is200 (send i) = false) : ∀ fuel attempt : Nat,
    call_groqGo send attempt fuel = ⟨none, some "Failed after retries", fuel⟩ := by
  intro fuel
  induction fuel with
  | zero => intro attempt; rfl
  | succ k ih =>
    intro attempt
    rw [call_groqGo_fail_step send attempt k (h attempt), ih (attempt + 1)]

/-! ### Claim C4: retry behavior of the completion client -/

/-- C4 (amended): with an API key configured, (a) if every attempt gets a
non-200 outcome, `call_groq` makes exactly 3 attempts and returns content
`none` with error `"Failed after retries"` (the code capitalizes the
message); (b) if attempt 0 fails and attempt 1 returns HTTP 200, it returns
the content of that attempt with surrounding whitespace stripped, no error, and
stops after 2 attempts. -/
theorem claim_C4 :
    (∀ (apiKey model : String) (transport : Request → Nat → HttpResult)
        (prompt : List Char) (temperature : Rat) (maxTokens : Nat),
      apiKey ≠ "" →
      (∀ i, is200 (transport ⟨model, prompt, temperature, maxTokens⟩ i) = false) →
      call_groq apiKey model transport prompt temperature maxTokens
        = ⟨none, some "Failed after retries", 3⟩)
    ∧ (∀ (apiKey model : String) (transport : Request → Nat → HttpResult)
        (prompt : List Char) (temperature : Rat) (maxTokens : Nat) (body : List Char),
      apiKey ≠ "" →
      is200 (transport ⟨model, prompt, temperature, maxTokens⟩ 0) = false →
      transport ⟨model, prompt, temperature, maxTokens⟩ 1 = HttpResult.response 200 body →
      call_groq apiKey model transport prompt temperature maxTokens
        = ⟨some (pystrip body), none, 2⟩) := by
  constructor
  · intro apiKey model transport prompt temperature maxTokens hkey hfail
    simp only [call_groq, if_neg hkey]
    exact call_groqGo_all_fail _ hfail 3 0
  · intro apiKey model transport prompt temperature maxTokens body hkey h0 h1
    simp only [call_groq, if_neg hkey]
    rw [show (3 : Nat) = 2 + 1 from rfl, call_groqGo_fail_step _ 0 2 h0,
      show (2 : Nat) = 1 + 1 from rfl, call_groqGo_success_step _ 1 1 body h1]

/-- Transport that always reports HTTP 500. -/
def c4Transport : Request → Nat → HttpResult := fun _ _ => HttpResult.response 500 []

/-- Transport that throws on attempt 0 and returns 200 with content
`" hi "` on every later attempt. -/
def c4bTransport : Request → Nat → HttpResult := fun _ i =>
  if i = 0 then HttpResult.exception
  else HttpResult.response 200 [' ', 'h', 'i', ' ']

/-- C4 counterexample: the error string returned after exhausting the
retries is `"Failed after retries"` (capital F), not the claimed
`"failed after retries"`. -/
theorem claim_C4_counterexample :
    (call_groq "k" "m" c4Transport [] 0 1).error = some "Failed after retries"
    ∧ (call_groq "k" "m" c4Transport [] 0 1).error ≠ some "failed after retries" := by
  constructor
  · decide
  · decide

theorem claim_C4_witness :
    (("k" : String) ≠ ""
      ∧ is200 (c4Transport ⟨"m", [], 0, 5⟩ 0) = false
      ∧ call_groq "k" "m" c4Transport [] 0 5 = ⟨none, some "Failed after retries", 3⟩)
    ∧ (is200 (c4bTransport ⟨"m", [], 0, 5⟩ 0) = false
      ∧ c4bTransport ⟨"m", [], 0, 5⟩ 1 = HttpResult.response 200 [' ', 'h', 'i', ' ']
      ∧ call_groq "k" "m" c4bTransport [] 0 5 = ⟨some ['h', 'i'], none, 2⟩) := by
  have h1 := claim_C4.1 "k" "m" c4Transport [] 0 5 (by decide) (fun i => by rfl)
  have h2 := claim_C4.2 "k" "m" c4bTransport [] 0 5 [' ', 'h', 'i', ' ']
    (by decide) (by rfl) (by rfl)
  refine ⟨⟨by decide, by rfl, h1⟩, ⟨by rfl, by rfl, ?_⟩⟩
  rw [h2]
  decide

/-! ### Claim C5: missing credential -/

/-- C5 (amended): with no API key configured, `call_groq` fails immediately
with reason `"Missing GROQ_API_KEY"` (the literal used by the code, not the claimed
`"missing credential"`), returning content `none` and making zero network
attempts, regardless of prompt, temperature and max_tokens. -/
theorem claim_C5 (model : String) (transport : Request → Nat → HttpResult)
    (prompt : List Char) (temperature : Rat) (maxTokens : Nat) :
    call_groq "" model transport prompt temperature maxTokens
      = ⟨none, some "Missing GROQ_API_KEY", 0⟩ := rfl

/-- C5 counterexample: the failure reason is not the claimed literal
`"missing credential"`; it is `"Missing GROQ_API_KEY"`, and no attempt is
made. -/
theorem claim_C5_counterexample :
    (call_groq "" "m" (fun _ _ => HttpResult.exception) [] 0 1).error
        ≠ some "missing credential"
    ∧ (call_groq "" "m" (fun _ _ => HttpResult.exception) [] 0 1).error
        = some "Missing GROQ_API_KEY"
    ∧ (call_groq "" "m" (fun _ _ => HttpResult.exception) [] 0 1).attempts = 0 := by
  refine ⟨?_, ?_, ?_⟩ <;> decide

/-! ### Claim C10: empty or whitespace-only completions -/

/-- C10: if the completion endpoint returns HTTP 200 whose first-choice
content is whitespace-only, the client reports success with the empty string
and no error (one attempt), yet `call_groq_chunk` returns
`"AI filling failed."` and `groq_answer_question` returns
`"AI failed to answer."`, exactly as if the completion had failed — because
the empty string is falsy in `content if content else ...`. -/
theorem claim_C10 (apiKey model : String) (transport : Request → Nat → HttpResult)
    (prompt chunk filled question c : List Char) (temperature : Rat) (maxTokens : Nat)
    (hkey : apiKey ≠ "")
    (ht : ∀ req i, transport req i = HttpResult.response 200 c)
    (hc : ∀ x ∈ c, isPySpace x = true) :
    call_groq apiKey model transport prompt temperature maxTokens = ⟨some [], none, 1⟩
    ∧ call_groq_chunk apiKey model transport chunk = failFallback
    ∧ groq_answer_question apiKey model transport filled question = answerFallback := by
  have hps : pystrip c = [] := pystrip_eq_nil_of_all_ws c hc
  have hcall : ∀ (p : List Char) (temp : Rat) (mt : Nat),
      call_groq apiKey model transport p temp mt = ⟨some [], none, 1⟩ := by
    intro p temp mt
    simp only [call_groq, if_neg hkey]
    rw [show (3 : Nat) = 2 + 1 from rfl, call_groqGo_success_step _ 0 2 c (ht _ 0), hps]
  refine ⟨hcall prompt temperature maxTokens, ?_, ?_⟩
  · simp [call_groq_chunk, hcall]
  · simp [groq_answer_question, hcall]

/-- Transport that always answers 200 with a single-space content. -/
def c10Transport : Request → Nat → HttpResult := fun _ _ => HttpResult.response 200 [' ']

theorem claim_C10_witness :
    ("k" : String) ≠ ""
    ∧ (∀ x ∈ [' '], isPySpace x = true)
    ∧ call_groq "k" "m" c10Transport [] 0 1 = ⟨some [], none, 1⟩
    ∧ call_groq_chunk "k" "m" c10Transport ['x'] = failFallback
    ∧ groq_answer_question "k" "m" c10Transport ['x'] ['q'] = answerFallback := by
  have h := claim_C10 "k" "m" c10Transport [] ['x'] ['x'] ['q'] [' '] 0 1 (by decide)
    (fun _ _ => rfl) (by decide)
  exact ⟨by decide, by decide, h.1, h.2.1, h.2.2⟩

/-! ### Claim C2: chunked fill workflow on long texts -/

theorem foldl_append_map (f : List Char → List Char) (l : List (List Char)) :
    ∀ acc : List (List Char),
      l.foldl (fun acc chunk => acc ++ [f chunk]) acc = acc ++ l.map f := by
  induction l with
  | nil => intro acc; simp
  | cons x xs ih =>
    intro acc
    simp [ih, List.append_assoc]

/-- C2: for texts longer than 8000 characters, `groq_fill_missing` runs one
fill call per 4000-character chunk, in original chunk order (the prompt
trace is the chunk list in order), joins the per-chunk outputs with newline
separators in original order, and substitutes the fixed fallback string for
any chunk whose completion fails; the result is always a string. -/
theorem claim_C2 (apiKey model : String) (transport : Request → Nat → HttpResult)
    (text : List Char) (h : 8000 < text.length) :
    (groq_fill_missing apiKey model transport text).1
      = List.intercalate ['\n']
          ((chunkList 4000 text).map (call_groq_chunk apiKey model transport))
    ∧ (groq_fill_missing apiKey model transport text).2
      = (chunkList 4000 text).map fillPrompt
    ∧ (∀ chunk : List Char,
        (call_groq apiKey model transport (fillPrompt chunk) fillTemp 1300).content = none →
        call_groq_chunk apiKey model transport chunk = failFallback) := by
  refine ⟨?_, ?_, ?_⟩
  · simp only [groq_fill_missing, if_pos h]
    rw [foldl_append_map]
    simp
  · simp only [groq_fill_missing, if_pos h]
  · intro chunk hc
    simp [call_groq_chunk, hc]

theorem claim_C2_witness :
    8000 < (List.replicate 8001 'a').length
    ∧ ((groq_fill_missing "k" "m" (fun _ _ => HttpResult.exception)
          (List.replicate 8001 'a')).1
        = List.intercalate ['\n']
            ((chunkList 4000 (List.replicate 8001 'a')).map
              (call_groq_chunk "k" "m" (fun _ _ => HttpResult.exception)))
      ∧ (groq_fill_missing "k" "m" (fun _ _ => HttpResult.exception)
          (List.replicate 8001 'a')).2
        = (chunkList 4000 (List.replicate 8001 'a')).map fillPrompt
      ∧ (∀ chunk : List Char,
          (call_groq "k" "m" (fun _ _ => HttpResult.exception)
            (fillPrompt chunk) fillTemp 1300).content = none →
          call_groq_chunk "k" "m" (fun _ _ => HttpResult.exception) chunk
            = failFallback)) :=
  ⟨by rw [List.length_replicate]; omega,
   claim_C2 "k" "m" (fun _ _ => HttpResult.exception)
    (List.replicate 8001 'a') (by rw [List.length_replicate]; omega)⟩

/-! ### Claim C3: threshold boundary at 8000 and 8001 -/

/-- C3 (amended): a text of length exactly 8000 is processed as a single
chunk — exactly one fill prompt is issued, for the whole text — and the
workflow returns the Completion Client result verbatim when that result is
a non-empty success, and the fallback `"AI filling failed."` when the client
fails OR when its successful result is the empty string; a text of length
8001 is split into exactly 3 chunks of sizes 4000, 4000 and 1, giving three
fill calls. -/
theorem claim_C3 :
    (∀ (apiKey model : String) (transport : Request → Nat → HttpResult)
        (text : List Char), text.length = 8000 →
      (groq_fill_missing apiKey model transport text).2 = [fillPrompt text]
      ∧ ((call_groq apiKey model transport (fillPrompt text) fillTemp 1300).content = none →
          (groq_fill_missing apiKey model transport text).1 = failFallback)
      ∧ (∀ s : List Char,
          (call_groq apiKey model transport (fillPrompt text) fillTemp 1300).content = some s →
          s ≠ [] → (groq_fill_missing apiKey model transport text).1 = s)
      ∧ ((call_groq apiKey model transport (fillPrompt text) fillTemp 1300).content = some [] →
          (groq_fill_missing apiKey model transport text).1 = failFallback))
    ∧ (∀ (apiKey model : String) (transport : Request → Nat → HttpResult)
        (text : List Char), text.length = 8001 →
      (chunkList 4000 text).map List.length = [4000, 4000, 1]
      ∧ (groq_fill_missing apiKey model transport text).2.length = 3) := by
  constructor
  · intro apiKey model transport text hlen
    have hle : ¬ 8000 < text.length := by omega
    refine ⟨by simp [groq_fill_missing, if_neg hle], ?_, ?_, ?_⟩
    · intro hc
      simp [groq_fill_missing, if_neg hle, call_groq_chunk, hc]
    · intro s hc hs
      simp [groq_fill_missing, if_neg hle, call_groq_chunk, hc, hs]
    · intro hc
      simp [groq_fill_missing, if_neg hle, call_groq_chunk, hc]
  · intro apiKey model transport text hlen
    have hn : (0 : Nat) < 4000 := by omega
    have h1 : text ≠ [] := by
      intro hx
      rw [hx] at hlen
      simp at hlen
    have hd1 : (text.drop 4000).length = 4001 := by
      rw [List.length_drop, hlen]
    have h2 : text.drop 4000 ≠ [] := by
      intro hx
      rw [hx] at hd1
      simp at hd1
    have hd2 : ((text.drop 4000).drop 4000).length = 1 := by
      rw [List.length_drop, hd1]
    have h3 : (text.drop 4000).drop 4000 ≠ [] := by
      intro hx
      rw [hx] at hd2
      simp at hd2
    have hd3 : (((text.drop 4000).drop 4000).drop 4000).length = 0 := by
      rw [List.length_drop, hd2]
    have h4 : ((text.drop 4000).drop 4000).drop 4000 = [] :=
      List.length_eq_zero.mp hd3
    have hcs : chunkList 4000 text
        = [text.take 4000, (text.drop 4000).take 4000,
           ((text.drop 4000).drop 4000).take 4000] := by
      rw [chunkList_eq 4000 hn text, if_neg h1,
        chunkList_eq 4000 hn (text.drop 4000), if_neg h2,
        chunkList_eq 4000 hn ((text.drop 4000).drop 4000), if_neg h3, h4]
      rfl
    constructor
    · rw [hcs]
      simp [List.length_take, hlen, hd1, hd2]
    · have hgt : 8000 < text.length := by omega
      have htrace : (groq_fill_missing apiKey model transport text).2
          = (chunkList 4000 text).map fillPrompt := by
        simp only [groq_fill_missing, if_pos hgt]
      rw [htrace, hcs]
      simp

/-- Transport returning 200 with whitespace-only content on every attempt. -/
def c3Transport : Request → Nat → HttpResult := fun _ _ => HttpResult.response 200 [' ', ' ']

/-- A text of length exactly 8000. -/
def c3Text : List Char := List.replicate 8000 'a'

/-- C3 counterexample: on a length-8000 text whose single completion
succeeds with whitespace-only content, the client reports success (content
`some []`, error `none`), yet the workflow returns the fallback instead of
the client result verbatim — the claimed "result verbatim, or fallback on
failure" dichotomy fails. -/
theorem claim_C3_counterexample :
    c3Text.length = 8000
    ∧ (call_groq "k" "m" c3Transport (fillPrompt c3Text) fillTemp 1300).content = some []
    ∧ (call_groq "k" "m" c3Transport (fillPrompt c3Text) fillTemp 1300).error = none
    ∧ (groq_fill_missing "k" "m" c3Transport c3Text).1 = failFallback
    ∧ failFallback ≠ ([] : List Char) := by
  have hlen : c3Text.length = 8000 := by
    rw [show c3Text = List.replicate 8000 'a' from rfl, List.length_replicate]
  have hps : pystrip [' ', ' '] = [] := by decide
  have hr : ∀ (p : List Char), call_groq "k" "m" c3Transport p fillTemp 1300
      = ⟨some [], none, 1⟩ := by
    intro p
    simp only [call_groq, if_neg (by decide : ("k" : String) ≠ "")]
    rw [show (3 : Nat) = 2 + 1 from rfl,
      call_groqGo_success_step _ 0 2 [' ', ' '] rfl, hps]
  refine ⟨hlen, by rw [hr], by rw [hr], ?_, by decide⟩
  have hle : ¬ 8000 < c3Text.length := by omega
  simp [groq_fill_missing, if_neg hle, call_groq_chunk, hr]

/-! ### Claim C6: cursor advance and page breaks -/

/-- C6 (amended): the cursor advances by the fixed line height 12 after each
drawn or skipped line; the bottom-margin check runs only after the FINAL
segment of a non-blank line, where a new page is started and the cursor
reset to the top margin if the cursor fell below 40 — so after every
non-blank line the cursor is at or above the bottom margin, but blank lines
and intermediate wrapped segments are not checked and can push drawing
below the margin. -/
theorem claim_C6 :
    (∀ (line : List Char) (y : Int), pystrip line = [] →
        processLine line y = ([], y - 12))
    ∧ (∀ (line : List Char) (y : Int), pystrip line ≠ [] →
        40 ≤ (processLine line y).2) := by
  constructor
  · intro line y h
    simp [processLine, h]
  · intro line y h
    simp only [processLine, if_neg h]
    by_cases hy : (wrapGo line.length line y).2.2 - 12 < 40
    · rw [if_pos hy]
      norm_num
    · rw [if_neg hy]
      omega

theorem claim_C6_witness :
    (pystrip [] = ([] : List Char) ∧ processLine [] 722 = ([], 722 - 12))
    ∧ (pystrip ['a'] ≠ [] ∧ 40 ≤ (processLine ['a'] 722).2) :=
  ⟨⟨by decide, claim_C6.1 [] 722 (by decide)⟩,
   ⟨by decide, claim_C6.2 ['a'] 722 (by decide)⟩⟩

/-- 57 blank lines followed by a short line. -/
def c6Text : List Char := List.replicate 57 '\n' ++ ['a']

set_option maxRecDepth 8000 in
/-- C6 counterexample: blank lines advance the cursor without any
bottom-margin check, so after 57 blank lines the non-blank line `"a"` is
drawn at y = 38, strictly below the 40-point bottom margin — refuting
"no line is ever drawn at a vertical position below the bottom margin". -/
theorem claim_C6_counterexample :
    PdfOp.draw 40 38 ['a'] ∈ generate_pdf c6Text ∧ (38 : Int) < 40 := by
  constructor
  · decide
  · decide

/-! ### Claim C7: hard wrap at 110 characters -/

theorem wrapGo_le (fuel : Nat) (line : List Char) (y : Int) (h : ¬ 110 < line.length) :
    wrapGo fuel line y = ([], line, y) := by
  cases fuel with
  | zero => rfl
  | succ k =>
    simp only [wrapGo]
    rw [if_neg h]

theorem wrapGo_gt (fuel : Nat) (line : List Char) (y : Int) (h : 110 < line.length) :
    wrapGo (fuel + 1) line y =
      (PdfOp.draw 40 y (line.take 110) :: (wrapGo fuel (line.drop 110) (y - 12)).1,
       (wrapGo fuel (line.drop 110) (y - 12)).2.1,
       (wrapGo fuel (line.drop 110) (y - 12)).2.2) := by
  simp only [wrapGo]
  rw [if_pos h]

/-- C7: a non-blank line of exactly 110 characters yields exactly one
`drawString` (the stripped line at the current cursor), and a non-blank line
of 111 characters yields exactly two: the first 110 characters at the
cursor, then the stripped remainder one line height lower. -/
theorem claim_C7 :
    (∀ (line : List Char) (y : Int), line.length = 110 → pystrip line ≠ [] →
        (processLine line y).1.filter isDraw = [PdfOp.draw 40 y (pystrip line)])
    ∧ (∀ (line : List Char) (y : Int), line.length = 111 → pystrip line ≠ [] →
        (processLine line y).1.filter isDraw
          = [PdfOp.draw 40 y (line.take 110),
             PdfOp.draw 40 (y - 12) (pystrip (line.drop 110))]) := by
  constructor
  · intro line y hlen hnb
    have hw : wrapGo 110 line y = ([], line, y) :=
      wrapGo_le 110 line y (by omega)
    simp only [processLine, if_neg hnb]
    rw [hlen, hw]
    by_cases hy : y - 12 < 40
    · rw [if_pos hy]
      simp [isDraw]
    · rw [if_neg hy]
      simp [isDraw]
  · intro line y hlen hnb
    have hdl : (line.drop 110).length = 1 := by rw [List.length_drop, hlen]
    have hw2 : wrapGo 110 (line.drop 110) (y - 12) = ([], line.drop 110, y - 12) :=
      wrapGo_le 110 (line.drop 110) (y - 12) (by omega)
    have hw : wrapGo 111 line y
        = ([PdfOp.draw 40 y (line.take 110)], line.drop 110, y - 12) := by
      rw [show (111 : Nat) = 110 + 1 from rfl, wrapGo_gt 110 line y (by omega), hw2]
    simp only [processLine, if_neg hnb]
    rw [hlen, hw]
    by_cases hy : y - 12 - 12 < 40
    · rw [if_pos hy]
      simp [isDraw]
    · rw [if_neg hy]
      simp [isDraw]

theorem claim_C7_witness :
    ((List.replicate 110 'a').length = 110
      ∧ pystrip (List.replicate 110 'a') ≠ []
      ∧ (processLine (List.replicate 110 'a') 722).1.filter isDraw
          = [PdfOp.draw 40 722 (pystrip (List.replicate 110 'a'))])
    ∧ ((List.replicate 111 'a').length = 111
      ∧ pystrip (List.replicate 111 'a') ≠ []
      ∧ (processLine (List.replicate 111 'a') 722).1.filter isDraw
          = [PdfOp.draw 40 722 ((List.replicate 111 'a').take 110),
             PdfOp.draw 40 (722 - 12) (pystrip ((List.replicate 111 'a').drop 110))]) :=
  ⟨⟨by decide, by decide, claim_C7.1 (List.replicate 110 'a') 722 (by decide) (by decide)⟩,
   ⟨by decide, by decide, claim_C7.2 (List.replicate 111 'a') 722 (by decide) (by decide)⟩⟩

theorem claim_C3_witness :
    ((List.replicate 8000 'b').length = 8000
      ∧ ((groq_fill_missing "k" "m" c4Transport (List.replicate 8000 'b')).2
            = [fillPrompt (List.replicate 8000 'b')]
        ∧ ((call_groq "k" "m" c4Transport (fillPrompt (List.replicate 8000 'b'))
              fillTemp 1300).content = none →
            (groq_fill_missing "k" "m" c4Transport (List.replicate 8000 'b')).1
              = failFallback)
        ∧ (∀ s : List Char,
            (call_groq "k" "m" c4Transport (fillPrompt (List.replicate 8000 'b'))
              fillTemp 1300).content = some s →
            s ≠ [] →
            (groq_fill_missing "k" "m" c4Transport (List.replicate 8000 'b')).1 = s)
        ∧ ((call_groq "k" "m" c4Transport (fillPrompt (List.replicate 8000 'b'))
              fillTemp 1300).content = some [] →
            (groq_fill_missing "k" "m" c4Transport (List.replicate 8000 'b')).1
              = failFallback)))
    ∧ ((List.replicate 8001 'b').length = 8001
      ∧ ((chunkList 4000 (List.replicate 8001 'b')).map List.length = [4000, 4000, 1]
        ∧ (groq_fill_missing "k" "m" c4Transport (List.replicate 8001 'b')).2.length
            = 3)) :=
  ⟨⟨by rw [List.length_replicate],
    claim_C3.1 "k" "m" c4Transport (List.replicate 8000 'b') (by rw [List.length_replicate])⟩,
   ⟨by rw [List.length_replicate],
    claim_C3.2 "k" "m" c4Transport (List.replicate 8001 'b') (by rw [List.length_replicate])⟩⟩
